import Mathlib

/-!
Verification development for a Thompson-construction regex engine
(infix-to-postfix converter, fragment builder over a state arena,
epsilon-closure NFA simulator).  The definitions below are a shallow
embedding of the program: the slab arena becomes a Lean list with
stable indices, panicking operations become Option-valued, and the
unbounded recursion of the closure computation is made explicit with
a fuel parameter (a result of none means the run panicked or did not
finish within the given recursion budget; a result that is none for
every fuel value means the recursion never terminates).
-/

deriving instance DecidableEq for Except

namespace RegexNfa

inductive CharS where
  | Char : Char → CharS
  | Split : CharS
  | Match : CharS
  | Null : CharS
deriving DecidableEq

inductive StateIndex where
  | Index : Nat → StateIndex
  | DualIndex2out : Nat → StateIndex
  | DualIndex2out1 : Nat → StateIndex
deriving DecidableEq

def StateIndex.value : StateIndex → Nat
  | .Index i => i
  | .DualIndex2out i => i
  | .DualIndex2out1 i => i

def StateIndex.point2out (si : StateIndex) : StateIndex :=
  .DualIndex2out si.value

def StateIndex.point2out1 (si : StateIndex) : StateIndex :=
  .DualIndex2out1 si.value

def NULL_INDEX : StateIndex := .Index 0

def MATCH_INDEX : StateIndex := .Index 1

structure State where
  c : CharS
  out : StateIndex
  out1 : StateIndex
deriving DecidableEq

def NULL_STATE : State := ⟨CharS.Null, NULL_INDEX, NULL_INDEX⟩

def MATCH_STATE : State := ⟨CharS.Match, NULL_INDEX, NULL_INDEX⟩

/-- Translation of the converter loop of re2post: walks the pattern keeping
natom, nalt and the saved paren stack, emitting postfix characters. -/
def re2postLoop : List Char → Nat → Nat → Nat → List (Nat × Nat) → List Char →
    Except Nat (List Char)
  | [], _, natom, nalt, _, post =>
    Except.ok (post ++ List.replicate (natom - 1) '.' ++ List.replicate nalt '|')
  | ch :: rest, index, natom, nalt, paren, post =>
    if ch = '(' then
      if 1 < natom then
        re2postLoop rest (index + 1) 0 0 ((nalt, natom - 1) :: paren) (post ++ ['.'])
      else
        re2postLoop rest (index + 1) 0 0 ((nalt, natom) :: paren) post
    else if ch = '|' then
      if natom = 0 then Except.error index
      else re2postLoop rest (index + 1) 0 (nalt + 1) paren
        (post ++ List.replicate (natom - 1) '.')
    else if ch = ')' then
      if natom = 0 then Except.error index
      else
        match paren with
        | [] => Except.error index
        | (a, n) :: ps =>
          re2postLoop rest (index + 1) (n + 1) a ps
            (post ++ List.replicate (natom - 1) '.' ++ List.replicate nalt '|')
    else if ch = '*' ∨ ch = '+' ∨ ch = '?' then
      if natom = 0 then Except.error index
      else re2postLoop rest (index + 1) natom nalt paren (post ++ [ch])
    else
      if 1 < natom then
        re2postLoop rest (index + 1) natom nalt paren (post ++ ['.', ch])
      else
        re2postLoop rest (index + 1) (natom + 1) nalt paren (post ++ [ch])

/-- Convert infix regexp re to postfix notation, inserting the character
dot as explicit concatenation operator; an error carries the position of
the offending character. -/
def re2post (re : List Char) : Except Nat (List Char) :=
  re2postLoop re 0 0 0 [] []

/-- Allocate a state in the arena (slab insert): the new index is the
current length, since states are never removed. -/
def state (states : List State) (c : CharS) (out out1 : StateIndex) :
    StateIndex × List State :=
  (StateIndex.Index states.length, states ++ [⟨c, out, out1⟩])

structure Frag where
  start : StateIndex
  out : List StateIndex

/-- Patch the list of slots at outs to point to t; none models the panic
when a slot names an absent arena entry. -/
def patch : List StateIndex → StateIndex → List State → Option (List State)
  | [], _, A => some A
  | .Index i :: rest, t, A =>
    match A.get? i with
    | some st => patch rest t (A.set i ⟨st.c, t, st.out1⟩)
    | none => none
  | .DualIndex2out i :: rest, t, A =>
    match A.get? i with
    | some st => patch rest t (A.set i ⟨st.c, t, st.out1⟩)
    | none => none
  | .DualIndex2out1 i :: rest, t, A =>
    match A.get? i with
    | some st => patch rest t (A.set i ⟨st.c, st.out, t⟩)
    | none => none

/-- One postfix token of the fragment builder; none models the unwrap
panics on an underflowing fragment stack. -/
def tokStep (ch : Char) (frags : List Frag) (A : List State) :
    Option (List Frag × List State) :=
  if ch = '.' then
    match frags with
    | e2 :: e1 :: fs =>
      match patch e1.out e2.start A with
      | some A1 => some (⟨e1.start, e2.out⟩ :: fs, A1)
      | none => none
    | _ => none
  else if ch = '|' then
    match frags with
    | e2 :: e1 :: fs =>
      let p := state A CharS.Split e1.start e2.start
      some (⟨p.1, e1.out ++ e2.out⟩ :: fs, p.2)
    | _ => none
  else if ch = '*' then
    match frags with
    | e :: fs =>
      let p := state A CharS.Split e.start NULL_INDEX
      match patch e.out p.1 p.2 with
      | some A1 => some (⟨p.1, [p.1.point2out1]⟩ :: fs, A1)
      | none => none
    | _ => none
  else if ch = '?' then
    match frags with
    | e :: fs =>
      let p := state A CharS.Split e.start NULL_INDEX
      some (⟨p.1, e.out ++ [p.1.point2out1]⟩ :: fs, p.2)
    | _ => none
  else if ch = '+' then
    match frags with
    | e :: fs =>
      let p := state A CharS.Split e.start NULL_INDEX
      match patch e.out p.1 p.2 with
      | some A1 => some (⟨e.start, [p.1.point2out1]⟩ :: fs, A1)
      | none => none
    | _ => none
  else
    let p := state A (CharS.Char ch) NULL_INDEX NULL_INDEX
    some (⟨p.1, [p.1.point2out]⟩ :: frags, p.2)

def postfix2nfaLoop : List Char → List Frag → List State →
    Option (List Frag × List State)
  | [], frags, A => some (frags, A)
  | ch :: rest, frags, A =>
    match tokStep ch frags A with
    | some p => postfix2nfaLoop rest p.1 p.2
    | none => none

/-- Translate postfix to an NFA, returning the start state index and the
arena holding all allocated states.  The two sentinel states are inserted
first at indices 0 and 1; the final fragment is popped with a default
(start = NULL_INDEX, no open slots) when the stack is empty, and its open
slots are patched to the match sentinel. -/
def postfix2nfa (post : List Char) : Option (StateIndex × List State) :=
  match postfix2nfaLoop post [] [NULL_STATE, MATCH_STATE] with
  | some (frags, A) =>
    let e := match frags with
      | f :: _ => f
      | [] => (⟨NULL_INDEX, []⟩ : Frag)
    match patch e.out MATCH_INDEX A with
    | some A1 => some (e.start, A1)
    | none => none
  | none => none

/-- Add a state index to the live set, following unlabeled Split arrows;
fuel bounds the recursion depth (the source recurses without bound), and
none means a panic on an absent index or exhausted fuel. -/
def add_state : Nat → List StateIndex → StateIndex → List State →
    Option (List StateIndex × List State)
  | 0, _, _, _ => none
  | fuel + 1, set, si, A =>
    match A.get? si.value with
    | some st =>
      if st.c = CharS.Split then
        match add_state fuel set st.out A with
        | some p => add_state fuel p.1 st.out1 p.2
        | none => none
      else some ((if si ∈ set then set else si :: set), A)
    | none => none

/-- Inner loop of step: scan the current set, and for every state labeled
with the input character add its successor to the next set. -/
def stepLoop (fuel : Nat) (ch : Char) : List StateIndex → List StateIndex →
    List State → Option (List StateIndex × List State)
  | [], nset, A => some (nset, A)
  | i :: rest, nset, A =>
    match A.get? i.value with
    | some st =>
      if st.c = CharS.Char ch then
        match add_state fuel nset st.out A with
        | some p => stepLoop fuel ch rest p.1 p.2
        | none => none
      else stepLoop fuel ch rest nset A
    | none => none

/-- Step the NFA from the states in cset past the character ch, creating
the next state set (the source clears nset first, so it starts empty). -/
def step (fuel : Nat) (ch : Char) (cset : List StateIndex) (A : List State) :
    Option (List StateIndex × List State) :=
  stepLoop fuel ch cset [] A

/-- Check whether the state list contains a match state. -/
def is_match : List StateIndex → List State → Option Bool
  | [], _ => some false
  | i :: rest, A =>
    match A.get? i.value with
    | some st => if st.c = CharS.Match then some true else is_match rest A
    | none => none

def matchLoop (fuel : Nat) : List Char → List StateIndex → List State →
    Option (List StateIndex × List State)
  | [], cset, A => some (cset, A)
  | ch :: rest, cset, A =>
    match step fuel ch cset A with
    | some p => matchLoop fuel rest p.1 p.2
    | none => none

/-- Run the NFA to determine whether it matches the string; the arena is
threaded through exactly where the source passes a mutable reference. -/
def matchExpr (fuel : Nat) (s : List Char) (start : StateIndex)
    (A : List State) : Option (Bool × List State) :=
  match add_state fuel [] start A with
  | some p =>
    match matchLoop fuel s p.1 p.2 with
    | some q =>
      match is_match q.1 q.2 with
      | some b => some (b, q.2)
      | none => none
    | none => none
  | none => none

/-- Whole pipeline as exercised by the tests: convert, build, simulate. -/
def compile_matches (fuel : Nat) (re s : List Char) : Option Bool :=
  match re2post re with
  | .ok post =>
    match postfix2nfa post with
    | some p => (matchExpr fuel s p.1 p.2).map Prod.fst
    | none => none
  | .error _ => none

/-- A state reference that names a state directly (the Index constructor),
as opposed to a dual slot reference; only such references are ever stored
in transition slots of the finished arena. -/
def isIdx (si : StateIndex) : Prop := si = StateIndex.Index si.value

instance (si : StateIndex) : Decidable (isIdx si) := by
  unfold isIdx; infer_instance

/-- Every state stored in the arena has direct (non-dual) references in
both of its transition slots. -/
def fieldsIdx (A : List State) : Prop :=
  ∀ st ∈ A, isIdx st.out ∧ isIdx st.out1

/-- Every fragment on the builder stack has a direct start reference, and
all of its open slots name allocated (non-sentinel) states. -/
def fragsInv (frags : List Frag) : Prop :=
  ∀ f ∈ frags, isIdx f.start ∧ ∀ o ∈ f.out, 2 ≤ StateIndex.value o

/-- Arena invariant maintained by the builder: the two sentinels sit at
indices 0 and 1 and all transition slots hold direct references. -/
def arenaInv (A : List State) : Prop :=
  2 ≤ A.length ∧ A.get? 0 = some NULL_STATE ∧ A.get? 1 = some MATCH_STATE ∧
    fieldsIdx A

/-- Boolean check that no member of the set is the index of a state whose
tag is Split. -/
def splitFreeB (A : List State) (set : List StateIndex) : Bool :=
  set.all fun x =>
    match A.get? (StateIndex.value x) with
    | some st => decide (st.c ≠ CharS.Split)
    | none => true

lemma splitFreeB_of (A : List State) (set : List StateIndex)
    (h : ∀ x ∈ set, ∀ st, A.get? (StateIndex.value x) = some st →
      st.c ≠ CharS.Split) : splitFreeB A set = true := by
  unfold splitFreeB
  rw [List.all_eq_true]
  intro x hx
  cases hg : A.get? (StateIndex.value x) with
  | none => rfl
  | some st => exact decide_eq_true (h x hx st hg)

/-- Core facts about the closure computation: it leaves the arena intact,
preserves freedom from duplicates, only grows the set, and every newly
inserted member names a present state whose tag is not Split; moreover,
when all arena slots hold direct references and the queried reference is
direct, every new member is direct. -/
lemma add_state_main : ∀ (fuel : Nat) (set : List StateIndex)
    (si : StateIndex) (A : List State) (set' : List StateIndex)
    (A' : List State), add_state fuel set si A = some (set', A') →
    A' = A ∧
    (set.Nodup → set'.Nodup) ∧
    (∀ x, x ∈ set → x ∈ set') ∧
    (∀ x, x ∈ set' → x ∈ set ∨
      ∃ st, A.get? (StateIndex.value x) = some st ∧ st.c ≠ CharS.Split) ∧
    (fieldsIdx A → isIdx si → ∀ x, x ∈ set' → x ∈ set ∨ isIdx x) := by
  intro fuel
  induction fuel with
  | zero =>
    intro set si A set' A' h
    exact absurd h (by simp [add_state])
  | succ fuel ih =>
    intro set si A set' A' h
    simp only [add_state] at h
    cases hget : A.get? (StateIndex.value si) with
    | none => rw [hget] at h; cases h
    | some st =>
      rw [hget] at h
      dsimp only at h
      by_cases hc : st.c = CharS.Split
      · rw [if_pos hc] at h
        cases h1 : add_state fuel set st.out A with
        | none => rw [h1] at h; cases h
        | some p =>
          rw [h1] at h
          obtain ⟨set1, A1⟩ := p
          obtain ⟨e1, nd1, sub1, new1, idx1⟩ := ih set st.out A set1 A1 h1
          rw [e1] at h
          obtain ⟨e2, nd2, sub2, new2, idx2⟩ := ih set1 st.out1 A set' A' h
          have hmem : st ∈ A := List.get?_mem hget
          refine ⟨e2, fun hnd => nd2 (nd1 hnd),
            fun x hx => sub2 x (sub1 x hx), ?_, ?_⟩
          · intro x hx
            rcases new2 x hx with h' | h'
            · exact new1 x h'
            · exact Or.inr h'
          · intro hf _
            intro x hx
            rcases idx2 hf (hf st hmem).2 x hx with h' | h'
            · exact idx1 hf (hf st hmem).1 x h'
            · exact Or.inr h'
      · rw [if_neg hc] at h
        injection h with h'
        rw [Prod.mk.injEq] at h'
        obtain ⟨hs, hA⟩ := h'
        subst hs; subst hA
        by_cases hmem : si ∈ set
        · rw [if_pos hmem]
          refine ⟨rfl, fun hnd => hnd, fun x hx => hx, fun x hx => Or.inl hx,
            fun _ _ x hx => Or.inl hx⟩
        · rw [if_neg hmem]
          refine ⟨rfl, ?_, ?_, ?_, ?_⟩
          · intro hnd
            exact List.nodup_cons.mpr ⟨hmem, hnd⟩
          · intro x hx
            exact List.mem_cons_of_mem si hx
          · intro x hx
            rcases List.mem_cons.mp hx with h' | h'
            · subst h'
              exact Or.inr ⟨st, hget, hc⟩
            · exact Or.inl h'
          · intro _ hidx x hx
            rcases List.mem_cons.mp hx with h' | h'
            · subst h'
              exact Or.inr hidx
            · exact Or.inl h'

/-- Core facts about the scan that builds the next state set: the arena is
left intact, duplicate freedom is preserved, and every member of the
resulting set was already present or names a present non-Split state
(a direct reference when all arena slots are direct). -/
lemma stepLoop_main (fuel : Nat) (ch : Char) : ∀ (pending nset : List StateIndex)
    (A : List State) (nset' : List StateIndex) (A' : List State),
    stepLoop fuel ch pending nset A = some (nset', A') →
    A' = A ∧
    (nset.Nodup → nset'.Nodup) ∧
    (∀ x, x ∈ nset' → x ∈ nset ∨
      ∃ st, A.get? (StateIndex.value x) = some st ∧ st.c ≠ CharS.Split) ∧
    (fieldsIdx A → ∀ x, x ∈ nset' → x ∈ nset ∨ isIdx x) := by
  intro pending
  induction pending with
  | nil =>
    intro nset A nset' A' h
    simp only [stepLoop] at h
    injection h with h'
    rw [Prod.mk.injEq] at h'
    obtain ⟨hs, hA⟩ := h'
    subst hs; subst hA
    exact ⟨rfl, fun hnd => hnd, fun x hx => Or.inl hx, fun _ x hx => Or.inl hx⟩
  | cons i rest ih =>
    intro nset A nset' A' h
    simp only [stepLoop] at h
    cases hget : A.get? (StateIndex.value i) with
    | none => rw [hget] at h; cases h
    | some st =>
      rw [hget] at h
      dsimp only at h
      by_cases hch : st.c = CharS.Char ch
      · rw [if_pos hch] at h
        cases h1 : add_state fuel nset st.out A with
        | none => rw [h1] at h; cases h
        | some p =>
          rw [h1] at h
          obtain ⟨nset1, A1⟩ := p
          obtain ⟨e1, nd1, sub1, new1, idx1⟩ :=
            add_state_main fuel nset st.out A nset1 A1 h1
          rw [e1] at h
          obtain ⟨e2, nd2, new2, idx2⟩ := ih nset1 A nset' A' h
          have hmem : st ∈ A := List.get?_mem hget
          refine ⟨e2, fun hnd => nd2 (nd1 hnd), ?_, ?_⟩
          · intro x hx
            rcases new2 x hx with h' | h'
            · exact new1 x h'
            · exact Or.inr h'
          · intro hf x hx
            rcases idx2 hf x hx with h' | h'
            · exact idx1 hf (hf st hmem).1 x h'
            · exact Or.inr h'
      · rw [if_neg hch] at h
        exact ih nset A nset' A' h

/-- The per-character loop of the simulator leaves the arena intact. -/
lemma matchLoop_arena (fuel : Nat) : ∀ (s : List Char)
    (cset : List StateIndex) (A : List State) (cset' : List StateIndex)
    (A' : List State), matchLoop fuel s cset A = some (cset', A') → A' = A := by
  intro s
  induction s with
  | nil =>
    intro cset A cset' A' h
    simp only [matchLoop] at h
    injection h with h'
    rw [Prod.mk.injEq] at h'
    exact h'.2.symm
  | cons ch rest ih =>
    intro cset A cset' A' h
    simp only [matchLoop] at h
    cases h1 : step fuel ch cset A with
    | none => rw [h1] at h; cases h
    | some p =>
      rw [h1] at h
      obtain ⟨nset, A1⟩ := p
      have e1 : A1 = A := (stepLoop_main fuel ch cset [] A nset A1 h1).1
      rw [e1] at h
      exact ih nset A cset' A' h

/-- The whole simulation returns the arena it was given. -/
lemma matchExpr_arena (fuel : Nat) (s : List Char) (start : StateIndex)
    (A : List State) (b : Bool) (A' : List State)
    (h : matchExpr fuel s start A = some (b, A')) : A' = A := by
  simp only [matchExpr] at h
  cases h1 : add_state fuel [] start A with
  | none => rw [h1] at h; cases h
  | some p =>
    rw [h1] at h
    obtain ⟨cset, A1⟩ := p
    have e1 : A1 = A := (add_state_main fuel [] start A cset A1 h1).1
    dsimp only at h
    cases h2 : matchLoop fuel s cset A1 with
    | none => rw [h2] at h; cases h
    | some q =>
      rw [h2] at h
      obtain ⟨cset2, A2⟩ := q
      have e2 : A2 = A1 := matchLoop_arena fuel s cset A1 cset2 A2 h2
      dsimp only at h
      cases h3 : is_match cset2 A2 with
      | none => rw [h3] at h; cases h
      | some b2 =>
        rw [h3] at h
        injection h with h'
        rw [Prod.mk.injEq] at h'
        rw [← h'.2, e2, e1]

lemma fragsInv_cons (f : Frag) (fs : List Frag) (hstart : isIdx f.start)
    (hout : ∀ o ∈ f.out, 2 ≤ StateIndex.value o) (hfs : fragsInv fs) :
    fragsInv (f :: fs) := by
  intro g hg
  rcases List.mem_cons.mp hg with h' | h'
  · subst h'; exact ⟨hstart, hout⟩
  · exact hfs g h'

lemma arenaInv_set (A : List State) (i : Nat) (st st' : State)
    (hget : A.get? i = some st) (hi : 2 ≤ i)
    (h1 : isIdx st'.out) (h2 : isIdx st'.out1) (hA : arenaInv A) :
    arenaInv (A.set i st') := by
  obtain ⟨hlen, h0, hm, hf⟩ := hA
  refine ⟨?_, ?_, ?_, ?_⟩
  · rw [List.length_set]; exact hlen
  · rw [List.get?_set_ne st' A (by omega : i ≠ 0)]; exact h0
  · rw [List.get?_set_ne st' A (by omega : i ≠ 1)]; exact hm
  · intro s hs
    rcases List.mem_or_eq_of_mem_set hs with h' | h'
    · exact hf s h'
    · subst h'; exact ⟨h1, h2⟩

lemma arenaInv_append (A : List State) (c : CharS) (o o1 : StateIndex)
    (ho : isIdx o) (ho1 : isIdx o1) (hA : arenaInv A) :
    arenaInv (A ++ [⟨c, o, o1⟩]) := by
  obtain ⟨hlen, h0, hm, hf⟩ := hA
  refine ⟨?_, ?_, ?_, ?_⟩
  · rw [List.length_append]; omega
  · rw [List.get?_append (by omega : 0 < A.length)]; exact h0
  · rw [List.get?_append (by omega : 1 < A.length)]; exact hm
  · intro s hs
    rcases List.mem_append.mp hs with h' | h'
    · exact hf s h'
    · rw [List.mem_singleton.mp h']; exact ⟨ho, ho1⟩

lemma patch_inv : ∀ (outs : List StateIndex) (t : StateIndex)
    (A A' : List State), patch outs t A = some A' →
    (∀ o ∈ outs, 2 ≤ StateIndex.value o) → isIdx t → arenaInv A →
    arenaInv A' := by
  intro outs
  induction outs with
  | nil =>
    intro t A A' h _ _ hA
    simp only [patch] at h
    injection h with h'
    rw [← h']; exact hA
  | cons o rest ih =>
    intro t A A' h houts hidx hA
    have ho : 2 ≤ StateIndex.value o := houts o (List.mem_cons_self o rest)
    have hrest : ∀ x ∈ rest, 2 ≤ StateIndex.value x :=
      fun x hx => houts x (List.mem_cons_of_mem o hx)
    cases o with
    | Index i =>
      simp only [patch] at h
      cases hget : A.get? i with
      | none => rw [hget] at h; cases h
      | some st =>
        rw [hget] at h
        dsimp only at h
        refine ih t _ A' h hrest hidx ?_
        exact arenaInv_set A i st ⟨st.c, t, st.out1⟩ hget ho hidx
          ((hA.2.2.2 st (List.get?_mem hget)).2) hA
    | DualIndex2out i =>
      simp only [patch] at h
      cases hget : A.get? i with
      | none => rw [hget] at h; cases h
      | some st =>
        rw [hget] at h
        dsimp only at h
        refine ih t _ A' h hrest hidx ?_
        exact arenaInv_set A i st ⟨st.c, t, st.out1⟩ hget ho hidx
          ((hA.2.2.2 st (List.get?_mem hget)).2) hA
    | DualIndex2out1 i =>
      simp only [patch] at h
      cases hget : A.get? i with
      | none => rw [hget] at h; cases h
      | some st =>
        rw [hget] at h
        dsimp only at h
        refine ih t _ A' h hrest hidx ?_
        exact arenaInv_set A i st ⟨st.c, st.out, t⟩ hget ho
          ((hA.2.2.2 st (List.get?_mem hget)).1) hidx hA

lemma tokStep_inv (ch : Char) (frags : List Frag) (A : List State)
    (frags' : List Frag) (A' : List State)
    (h : tokStep ch frags A = some (frags', A'))
    (hA : arenaInv A) (hF : fragsInv frags) : arenaInv A' ∧ fragsInv frags' := by
  unfold tokStep at h
  split_ifs at h with h1 h2 h3 h4 h5
  · -- concatenation token
    cases frags with
    | nil => cases h
    | cons e2 tl =>
      cases tl with
      | nil => cases h
      | cons e1 fs =>
        dsimp only at h
        have he2 := hF e2 (List.mem_cons_self e2 (e1 :: fs))
        have he1 := hF e1 (List.mem_cons_of_mem e2 (List.mem_cons_self e1 fs))
        have hfs : fragsInv fs := fun g hg =>
          hF g (List.mem_cons_of_mem e2 (List.mem_cons_of_mem e1 hg))
        cases hp : patch e1.out e2.start A with
        | none => rw [hp] at h; cases h
        | some A1 =>
          rw [hp] at h
          dsimp only at h
          injection h with h'
          rw [Prod.mk.injEq] at h'
          obtain ⟨hfr, hAr⟩ := h'
          rw [← hfr, ← hAr]
          refine ⟨patch_inv e1.out e2.start A A1 hp he1.2 he2.1 hA, ?_⟩
          exact fragsInv_cons _ fs he1.1 he2.2 hfs
  · -- alternation token
    cases frags with
    | nil => cases h
    | cons e2 tl =>
      cases tl with
      | nil => cases h
      | cons e1 fs =>
        simp only [state] at h
        have he2 := hF e2 (List.mem_cons_self e2 (e1 :: fs))
        have he1 := hF e1 (List.mem_cons_of_mem e2 (List.mem_cons_self e1 fs))
        have hfs : fragsInv fs := fun g hg =>
          hF g (List.mem_cons_of_mem e2 (List.mem_cons_of_mem e1 hg))
        injection h with h'
        rw [Prod.mk.injEq] at h'
        obtain ⟨hfr, hAr⟩ := h'
        rw [← hfr, ← hAr]
        refine ⟨arenaInv_append A CharS.Split e1.start e2.start he1.1 he2.1 hA, ?_⟩
        refine fragsInv_cons _ fs rfl ?_ hfs
        intro o hob
        rcases List.mem_append.mp hob with h' | h'
        · exact he1.2 o h'
        · exact he2.2 o h'
  · -- star token
    cases frags with
    | nil => cases h
    | cons e fs =>
      simp only [state] at h
      have he := hF e (List.mem_cons_self e fs)
      have hfs : fragsInv fs := fun g hg => hF g (List.mem_cons_of_mem e hg)
      have hA1 : arenaInv (A ++ [⟨CharS.Split, e.start, NULL_INDEX⟩]) :=
        arenaInv_append A CharS.Split e.start NULL_INDEX he.1 rfl hA
      cases hp : patch e.out (StateIndex.Index A.length)
          (A ++ [⟨CharS.Split, e.start, NULL_INDEX⟩]) with
      | none => rw [hp] at h; cases h
      | some A1 =>
        rw [hp] at h
        dsimp only at h
        injection h with h'
        rw [Prod.mk.injEq] at h'
        obtain ⟨hfr, hAr⟩ := h'
        rw [← hfr, ← hAr]
        refine ⟨patch_inv e.out (StateIndex.Index A.length) _ A1 hp he.2 rfl hA1, ?_⟩
        refine fragsInv_cons _ fs rfl ?_ hfs
        intro o hob
        rw [List.mem_singleton.mp hob]
        exact hA.1
  · -- question-mark token
    cases frags with
    | nil => cases h
    | cons e fs =>
      simp only [state] at h
      have he := hF e (List.mem_cons_self e fs)
      have hfs : fragsInv fs := fun g hg => hF g (List.mem_cons_of_mem e hg)
      injection h with h'
      rw [Prod.mk.injEq] at h'
      obtain ⟨hfr, hAr⟩ := h'
      rw [← hfr, ← hAr]
      refine ⟨arenaInv_append A CharS.Split e.start NULL_INDEX he.1 rfl hA, ?_⟩
      refine fragsInv_cons _ fs rfl ?_ hfs
      intro o hob
      rcases List.mem_append.mp hob with h' | h'
      · exact he.2 o h'
      · rw [List.mem_singleton.mp h']
        exact hA.1
  · -- plus token
    cases frags with
    | nil => cases h
    | cons e fs =>
      simp only [state] at h
      have he := hF e (List.mem_cons_self e fs)
      have hfs : fragsInv fs := fun g hg => hF g (List.mem_cons_of_mem e hg)
      have hA1 : arenaInv (A ++ [⟨CharS.Split, e.start, NULL_INDEX⟩]) :=
        arenaInv_append A CharS.Split e.start NULL_INDEX he.1 rfl hA
      cases hp : patch e.out (StateIndex.Index A.length)
          (A ++ [⟨CharS.Split, e.start, NULL_INDEX⟩]) with
      | none => rw [hp] at h; cases h
      | some A1 =>
        rw [hp] at h
        dsimp only at h
        injection h with h'
        rw [Prod.mk.injEq] at h'
        obtain ⟨hfr, hAr⟩ := h'
        rw [← hfr, ← hAr]
        refine ⟨patch_inv e.out (StateIndex.Index A.length) _ A1 hp he.2 rfl hA1, ?_⟩
        refine fragsInv_cons _ fs he.1 ?_ hfs
        intro o hob
        rw [List.mem_singleton.mp hob]
        exact hA.1
  · -- literal token
    simp only [state] at h
    injection h with h'
    rw [Prod.mk.injEq] at h'
    obtain ⟨hfr, hAr⟩ := h'
    rw [← hfr, ← hAr]
    refine ⟨arenaInv_append A (CharS.Char ch) NULL_INDEX NULL_INDEX rfl rfl hA, ?_⟩
    refine fragsInv_cons _ frags rfl ?_ hF
    intro o hob
    rw [List.mem_singleton.mp hob]
    exact hA.1

lemma postfix2nfaLoop_inv : ∀ (toks : List Char) (frags : List Frag)
    (A : List State) (frags' : List Frag) (A' : List State),
    postfix2nfaLoop toks frags A = some (frags', A') →
    arenaInv A → fragsInv frags → arenaInv A' ∧ fragsInv frags' := by
  intro toks
  induction toks with
  | nil =>
    intro frags A frags' A' h hA hF
    simp only [postfix2nfaLoop] at h
    injection h with h'
    rw [Prod.mk.injEq] at h'
    rw [← h'.1, ← h'.2]
    exact ⟨hA, hF⟩
  | cons ch rest ih =>
    intro frags A frags' A' h hA hF
    simp only [postfix2nfaLoop] at h
    cases h1 : tokStep ch frags A with
    | none => rw [h1] at h; cases h
    | some p =>
      rw [h1] at h
      obtain ⟨frags1, A1⟩ := p
      obtain ⟨hA1, hF1⟩ := tokStep_inv ch frags A frags1 A1 h1 hA hF
      exact ih frags1 A1 frags' A' h hA1 hF1

lemma arenaInv_init : arenaInv [NULL_STATE, MATCH_STATE] := by
  refine ⟨by decide, rfl, rfl, ?_⟩
  intro st hst
  rcases List.mem_cons.mp hst with h' | h'
  · subst h'; exact ⟨rfl, rfl⟩
  · rw [List.mem_singleton.mp h']; exact ⟨rfl, rfl⟩

/-- The arena returned by the builder satisfies the arena invariant, and
the returned start reference is a direct state index. -/
lemma postfix2nfa_inv (post : List Char) (start : StateIndex) (A : List State)
    (h : postfix2nfa post = some (start, A)) : arenaInv A ∧ isIdx start := by
  simp only [postfix2nfa] at h
  cases h1 : postfix2nfaLoop post [] [NULL_STATE, MATCH_STATE] with
  | none => rw [h1] at h; cases h
  | some p =>
    rw [h1] at h
    obtain ⟨frags, A0⟩ := p
    obtain ⟨hA0, hF0⟩ := postfix2nfaLoop_inv post [] [NULL_STATE, MATCH_STATE]
      frags A0 h1 arenaInv_init (fun g hg => absurd hg (List.not_mem_nil g))
    dsimp only at h
    cases frags with
    | nil =>
      dsimp only at h
      cases hp : patch ([] : List StateIndex) MATCH_INDEX A0 with
      | none => rw [hp] at h; cases h
      | some A1 =>
        rw [hp] at h
        dsimp only at h
        injection h with h'
        rw [Prod.mk.injEq] at h'
        rw [← h'.1, ← h'.2]
        exact ⟨patch_inv [] MATCH_INDEX A0 A1 hp
          (fun o ho => absurd ho (List.not_mem_nil o)) rfl hA0, rfl⟩
    | cons f fs =>
      dsimp only at h
      have hf := hF0 f (List.mem_cons_self f fs)
      cases hp : patch f.out MATCH_INDEX A0 with
      | none => rw [hp] at h; cases h
      | some A1 =>
        rw [hp] at h
        dsimp only at h
        injection h with h'
        rw [Prod.mk.injEq] at h'
        rw [← h'.1, ← h'.2]
        exact ⟨patch_inv f.out MATCH_INDEX A0 A1 hp hf.2 rfl hA0, hf.1⟩

/-- A duplicate-free list of direct references with values below n has at
most n elements. -/
lemma nodup_length_le (l : List StateIndex) (n : Nat) (hnd : l.Nodup)
    (h : ∀ x ∈ l, isIdx x ∧ StateIndex.value x < n) : l.length ≤ n := by
  have hinj : ∀ x ∈ l, ∀ y ∈ l,
      StateIndex.value x = StateIndex.value y → x = y := by
    intro x hx y hy hv
    have hx' : x = StateIndex.Index (StateIndex.value x) := (h x hx).1
    have hy' : y = StateIndex.Index (StateIndex.value y) := (h y hy).1
    rw [hx', hy', hv]
  have hmap : (l.map StateIndex.value).Nodup := List.Nodup.map_on hinj hnd
  have hlt : ∀ v ∈ l.map StateIndex.value, v < n := by
    intro v hv
    rcases List.mem_map.mp hv with ⟨x, hx, hvx⟩
    rw [← hvx]
    exact (h x hx).2
  have hsub : (l.map StateIndex.value).toFinset ⊆ Finset.range n := by
    intro v hv
    rw [Finset.mem_range]
    exact hlt v (List.mem_toFinset.mp hv)
  calc l.length = (l.map StateIndex.value).length := (List.length_map l _).symm
    _ = (l.map StateIndex.value).toFinset.card :=
        (List.toFinset_card_of_nodup hmap).symm
    _ ≤ (Finset.range n).card := Finset.card_le_card hsub
    _ = n := Finset.card_range n

/-- The arena the builder produces for the pattern consisting of the
letter a followed by two stars: states 3 and 4 are Split states that
point back at each other through their unlabeled arrows. -/
def astarArena : List State :=
  [NULL_STATE, MATCH_STATE,
   ⟨CharS.Char 'a', .Index 3, .Index 0⟩,
   ⟨CharS.Split, .Index 2, .Index 4⟩,
   ⟨CharS.Split, .Index 3, .Index 1⟩]

/-- On the cyclic arena, the closure computation exhausts any amount of
fuel when started from either Split state of the cycle: the recursion of
the source program never terminates there. -/
lemma astar_add_state_none : ∀ (fuel : Nat) (set : List StateIndex),
    add_state fuel set (.Index 3) astarArena = none ∧
    add_state fuel set (.Index 4) astarArena = none := by
  intro fuel
  induction fuel with
  | zero => intro set; exact ⟨rfl, rfl⟩
  | succ fuel ih =>
    intro set
    constructor
    · show add_state (fuel + 1) set (.Index 3) astarArena = none
      simp only [add_state]
      have hget : astarArena.get? (StateIndex.value (.Index 3)) =
          some ⟨CharS.Split, .Index 2, .Index 4⟩ := rfl
      rw [hget]
      dsimp only
      rw [if_pos rfl]
      cases h1 : add_state fuel set (.Index 2) astarArena with
      | none => rfl
      | some p =>
        obtain ⟨set1, A1⟩ := p
        have e1 : A1 = astarArena :=
          (add_state_main fuel set (.Index 2) astarArena set1 A1 h1).1
        rw [e1]
        exact (ih set1).2
    · show add_state (fuel + 1) set (.Index 4) astarArena = none
      simp only [add_state]
      have hget : astarArena.get? (StateIndex.value (.Index 4)) =
          some ⟨CharS.Split, .Index 3, .Index 1⟩ := rfl
      rw [hget]
      dsimp only
      rw [if_pos rfl]
      rw [(ih set).1]

/-- Arena built for the single-letter pattern a, used to exhibit concrete
runs of the simulator. -/
def exArena : List State :=
  [NULL_STATE, MATCH_STATE, ⟨CharS.Char 'a', .Index 1, .Index 0⟩]

lemma empty_cset_matchLoop : ∀ (fuel : Nat) (s : List Char),
    matchLoop fuel s [] [NULL_STATE, MATCH_STATE] =
      some ([], [NULL_STATE, MATCH_STATE]) := by
  intro fuel s
  induction s with
  | nil => rfl
  | cons ch rest ih =>
    simp only [matchLoop]
    have h3 : step fuel ch [] [NULL_STATE, MATCH_STATE] =
        some ([], [NULL_STATE, MATCH_STATE]) := rfl
    rw [h3]
    exact ih

lemma empty_pattern_run : ∀ (fuel : Nat) (s : List Char),
    matchExpr (fuel + 1) s NULL_INDEX [NULL_STATE, MATCH_STATE] =
      some (false, [NULL_STATE, MATCH_STATE]) := by
  intro fuel s
  simp only [matchExpr]
  have h1 : add_state (fuel + 1) [] NULL_INDEX [NULL_STATE, MATCH_STATE] =
      some ([NULL_INDEX], [NULL_STATE, MATCH_STATE]) := rfl
  rw [h1]
  dsimp only
  cases s with
  | nil => rfl
  | cons ch rest =>
    simp only [matchLoop]
    have h2 : step (fuel + 1) ch [NULL_INDEX] [NULL_STATE, MATCH_STATE] =
        some ([], [NULL_STATE, MATCH_STATE]) := rfl
    rw [h2]
    dsimp only
    rw [empty_cset_matchLoop (fuel + 1) rest]
    rfl

/-- Claim C1: refuted on the code (the claim describes the intended
behavior; the code diverges).  For the pattern a-star-star the converter
succeeds, yet the builder wires two Split states into a cycle: state 3's
secondary arrow points to state 4 and state 4's primary arrow points back
to state 3, so a chain of Split transitions never reaches a Literal,
Match or Placeholder state.  Consequently add_state from the start state
(state 4) returns none for every finite fuel, and simulation of the
compiled pattern terminates on no input at all. -/
theorem c1_astar_split_cycle_diverges :
    re2post "a**".data = Except.ok "a**".data ∧
    postfix2nfa "a**".data = some (.Index 4, astarArena) ∧
    astarArena.get? 3 = some ⟨CharS.Split, .Index 2, .Index 4⟩ ∧
    astarArena.get? 4 = some ⟨CharS.Split, .Index 3, .Index 1⟩ ∧
    (∀ fuel set, add_state fuel set (.Index 4) astarArena = none) ∧
    (∀ fuel s, matchExpr fuel s (.Index 4) astarArena = none) := by
  refine ⟨by decide, by decide, rfl, rfl,
    fun fuel set => (astar_add_state_none fuel set).2, ?_⟩
  intro fuel s
  simp [matchExpr, (astar_add_state_none fuel ([] : List StateIndex)).2]

/-- Claim C2: refuted on the code (the claim matches the spec's stated
intent; the code omits two of the four checks).  Only the unmatched
closing paren and the leading alternation bar produce an error with the
offending position; the lone opening paren converts to the empty postfix
and the trailing alternation bar converts to a postfix ending in the bar,
both reported as success. -/
theorem c2_error_positions :
    re2post "(".data = Except.ok [] ∧
    re2post ")".data = Except.error 0 ∧
    re2post "|a".data = Except.error 0 ∧
    re2post "a|".data = Except.ok "a|".data := by decide

/-- Claim C3: refuted on the code.  The converter accepts the pattern of
a letter followed by a bar, returning the postfix of that same shape, and
the builder then pops from an empty fragment stack on the bar token (the
embedded builder returns none exactly where the source unwrap panics), so
the fatal structure-violation branch is reachable without bypassing the
converter. -/
theorem c3_converter_output_underflows :
    re2post "a|".data = Except.ok ['a', '|'] ∧
    postfix2nfa ['a', '|'] = none := by decide

/-- Claim C4: confirmed.  The dot character is a literal per the grammar,
yet the converter emits dot as its explicit concatenation operator, so
the builder mistakes a user's literal dot for concatenation: the
single-dot pattern converts successfully and then underflows the fragment
stack (none models the source panic), and the pattern a-dot-b likewise
converts to a postfix whose leading dot token underflows; in neither case
does compile return a syntax error or an NFA treating the dot as a
literal. -/
theorem c4_dot_collides_with_concat :
    re2post ".".data = Except.ok ['.'] ∧
    postfix2nfa ['.'] = none ∧
    re2post "a.b".data = Except.ok "a..b.".data ∧
    postfix2nfa "a..b.".data = none := by decide

/-- Claim C5: refuted on the code (the claim matches the spec's stated
intent; the code slips in the default fragment).  The empty pattern
compiles, but the implicit final fragment's start is the null placeholder
sentinel (index 0), not the match sentinel (index 1), so the resulting
NFA matches nothing: the simulation returns false on the empty input and
on every other input. -/
theorem c5_empty_pattern_matches_nothing :
    re2post [] = Except.ok [] ∧
    postfix2nfa [] = some (NULL_INDEX, [NULL_STATE, MATCH_STATE]) ∧
    NULL_INDEX ≠ MATCH_INDEX ∧
    (∀ fuel s, matchExpr (fuel + 1) s NULL_INDEX [NULL_STATE, MATCH_STATE] =
      some (false, [NULL_STATE, MATCH_STATE])) := by
  exact ⟨by decide, by decide, by decide, empty_pattern_run⟩

/-- Claim C6: confirmed.  The compiled pipeline reproduces every concrete
whole-string matching example of the spec for the two sample patterns. -/
theorem c6_spec_examples :
    compile_matches 60 "(a*|b)cd?".data "aaaaacd".data = some true ∧
    compile_matches 60 "(a*|b)cd?".data "c".data = some true ∧
    compile_matches 60 "(a*|b)cd?".data "bcd".data = some true ∧
    compile_matches 60 "(a*|b)cd?".data "acx".data = some false ∧
    compile_matches 60 "a?b?c*d+(e|f)".data "abccdf".data = some true ∧
    compile_matches 60 "a?b?c*d+(e|f)".data "de".data = some true ∧
    compile_matches 60 "a?b?c*d+(e|f)".data "d".data = some false := by decide

/-- Claim C7: confirmed.  Whenever the initial closure (seeding the
current set) or a step (building the next set) returns, the resulting
live-state set is epsilon-closed: no member is the index of a state whose
tag is Split, because add_state inserts only on the non-Split branch and
recurses through both slots of a Split without inserting it. -/
theorem c7_live_sets_split_free :
    (∀ fuel si A set' A', add_state fuel [] si A = some (set', A') →
      splitFreeB A' set' = true) ∧
    (∀ fuel ch cset A nset A', step fuel ch cset A = some (nset, A') →
      splitFreeB A' nset = true) := by
  constructor
  · intro fuel si A set' A' h
    obtain ⟨e, _, _, hnew, _⟩ := add_state_main fuel [] si A set' A' h
    rw [e]
    refine splitFreeB_of A set' ?_
    intro x hx st hg
    rcases hnew x hx with h' | ⟨st', hg', hne⟩
    · exact absurd h' (List.not_mem_nil x)
    · have hst : st = st' := by
        have := hg.symm.trans hg'
        injection this
      rw [hst]; exact hne
  · intro fuel ch cset A nset A' h
    obtain ⟨e, _, hnew, _⟩ := stepLoop_main fuel ch cset [] A nset A' h
    rw [e]
    refine splitFreeB_of A nset ?_
    intro x hx st hg
    rcases hnew x hx with h' | ⟨st', hg', hne⟩
    · exact absurd h' (List.not_mem_nil x)
    · have hst : st = st' := by
        have := hg.symm.trans hg'
        injection this
      rw [hst]; exact hne

/-- Witness for claim C7 at a concrete run: on the arena compiled from
the single-letter pattern, the initial closure and one step both succeed
and both resulting sets are free of Split members. -/
theorem c7_witness :
    (add_state 5 [] (.Index 2) exArena = some ([.Index 2], exArena) ∧
      splitFreeB exArena [.Index 2] = true) ∧
    (step 5 'a' [.Index 2] exArena = some ([.Index 1], exArena) ∧
      splitFreeB exArena [.Index 1] = true) :=
  ⟨⟨by decide, c7_live_sets_split_free.1 5 (.Index 2) exArena [.Index 2]
      exArena (by decide)⟩,
   ⟨by decide, c7_live_sets_split_free.2 5 'a' [.Index 2] exArena [.Index 1]
      exArena (by decide)⟩⟩

/-- Claim C8: confirmed.  A simulation run returns exactly the arena it
was given (the simulator only reads through its mutable reference), so a
repeated run on the returned arena yields the same boolean result. -/
theorem c8_matchExpr_preserves_arena :
    ∀ fuel s start A b A', matchExpr fuel s start A = some (b, A') →
      A' = A ∧ matchExpr fuel s start A' = some (b, A') := by
  intro fuel s start A b A' h
  have e := matchExpr_arena fuel s start A b A' h
  subst e
  exact ⟨rfl, h⟩

/-- Witness for claim C8 at a concrete run: matching the single-letter
input against the single-letter pattern's arena succeeds and hands back
the unchanged arena. -/
theorem c8_witness :
    exArena = exArena ∧
    matchExpr 10 "a".data (.Index 2) exArena = some (true, exArena) :=
  c8_matchExpr_preserves_arena 10 "a".data (.Index 2) exArena true exArena
    (by decide)

/-- Claim C9: confirmed.  On an arena produced by the builder, every
live-state set the simulator forms (the initial closure and the result of
any step) contains only indices of states present in the arena, and its
cardinality never exceeds the total number of states, independent of the
input. -/
theorem c9_live_sets_bounded :
    ∀ post start A, postfix2nfa post = some (start, A) →
      ((∀ fuel set' A', add_state fuel [] start A = some (set', A') →
          (∀ x ∈ set', (A.get? (StateIndex.value x)).isSome = true) ∧
          set'.length ≤ A.length) ∧
       (∀ fuel ch cset nset A', step fuel ch cset A = some (nset, A') →
          (∀ x ∈ nset, (A.get? (StateIndex.value x)).isSome = true) ∧
          nset.length ≤ A.length)) := by
  intro post start A hpn
  obtain ⟨hAinv, hstart⟩ := postfix2nfa_inv post start A hpn
  have hf : fieldsIdx A := hAinv.2.2.2
  constructor
  · intro fuel set' A' h
    obtain ⟨_, hnd, _, hnew, hidx⟩ := add_state_main fuel [] start A set' A' h
    have hmem : ∀ x ∈ set', (A.get? (StateIndex.value x)).isSome = true := by
      intro x hx
      rcases hnew x hx with h' | ⟨st, hg, _⟩
      · exact absurd h' (List.not_mem_nil x)
      · rw [hg]; rfl
    refine ⟨hmem, ?_⟩
    refine nodup_length_le set' A.length (hnd List.nodup_nil) ?_
    intro x hx
    refine ⟨?_, ?_⟩
    · rcases hidx hf hstart x hx with h' | h'
      · exact absurd h' (List.not_mem_nil x)
      · exact h'
    · by_contra hlt
      push_neg at hlt
      have hnone := List.get?_eq_none.mpr hlt
      have := hmem x hx
      rw [hnone] at this
      exact Bool.noConfusion this
  · intro fuel ch cset nset A' h
    obtain ⟨_, hnd, hnew, hidx⟩ := stepLoop_main fuel ch cset [] A nset A' h
    have hmem : ∀ x ∈ nset, (A.get? (StateIndex.value x)).isSome = true := by
      intro x hx
      rcases hnew x hx with h' | ⟨st, hg, _⟩
      · exact absurd h' (List.not_mem_nil x)
      · rw [hg]; rfl
    refine ⟨hmem, ?_⟩
    refine nodup_length_le nset A.length (hnd List.nodup_nil) ?_
    intro x hx
    refine ⟨?_, ?_⟩
    · rcases hidx hf x hx with h' | h'
      · exact absurd h' (List.not_mem_nil x)
      · exact h'
    · by_contra hlt
      push_neg at hlt
      have hnone := List.get?_eq_none.mpr hlt
      have := hmem x hx
      rw [hnone] at this
      exact Bool.noConfusion this

/-- Witness for claim C9 at a concrete run: the single-letter pattern
compiles, the initial closure yields a one-element set, every member
names a present state, and one does not exceed the three arena states. -/
theorem c9_witness :
    (∀ x ∈ [StateIndex.Index 2], (exArena.get? (StateIndex.value x)).isSome
      = true) ∧ [StateIndex.Index 2].length ≤ exArena.length :=
  ((c9_live_sets_bounded "a".data (.Index 2) exArena (by decide)).1 5
    [.Index 2] exArena (by decide))

/-- Claim C10: confirmed.  In every arena the builder returns, index 0
holds the null placeholder sentinel and index 1 holds the match sentinel;
and every allocation made by the state helper on an arena that already
contains the two sentinels receives an index distinct from both sentinel
indices. -/
theorem c10_sentinel_indices :
    (∀ post start A, postfix2nfa post = some (start, A) →
      A.get? 0 = some NULL_STATE ∧ A.get? 1 = some MATCH_STATE) ∧
    (∀ A c o o1, 2 ≤ List.length A →
      (state A c o o1).1 ≠ NULL_INDEX ∧ (state A c o o1).1 ≠ MATCH_INDEX) := by
  constructor
  · intro post start A h
    obtain ⟨hAinv, _⟩ := postfix2nfa_inv post start A h
    exact ⟨hAinv.2.1, hAinv.2.2.1⟩
  · intro A c o o1 hlen
    constructor <;> simp only [state, NULL_INDEX, MATCH_INDEX] <;>
      intro hc <;> injection hc with hv <;> omega

/-- Witness for claim C10 at concrete inputs: the single-letter pattern's
arena carries both sentinels, and an allocation on it lands on neither
sentinel index. -/
theorem c10_witness :
    (exArena.get? 0 = some NULL_STATE ∧ exArena.get? 1 = some MATCH_STATE) ∧
    ((state exArena (CharS.Char 'b') NULL_INDEX NULL_INDEX).1 ≠ NULL_INDEX ∧
     (state exArena (CharS.Char 'b') NULL_INDEX NULL_INDEX).1 ≠ MATCH_INDEX) :=
  ⟨c10_sentinel_indices.1 "a".data (.Index 2) exArena (by decide),
   c10_sentinel_indices.2 exArena (CharS.Char 'b') NULL_INDEX NULL_INDEX
     (by decide)⟩

end RegexNfa
